import Mathlib

/-!
Shallow embedding of the `todo` ink! contract (src/lib.rs) and proofs of the
specification claims about it.

The contract stores a vector of `Task` records and a `u32` counter `next_id`.
We model `u32` values as `Nat`; the only arithmetic the contract performs on
them is `saturating_add(1)`, which we model explicitly as clamping at
`U32MAX = 2^32 - 1`.  Rust `Vec<Task>` becomes `List Task`, `Option<Task>`
becomes `Option Task`, and each `&mut self` message becomes a pure function
returning its result together with the updated store.
-/

namespace TodoSpec

/-- Maximum value of a Rust `u32`: ids and `next_id` saturate here. -/
def U32MAX : Nat := 4294967295

/-- Rust struct `Task { id: u32, description: String, completed: bool }`. -/
structure Task where
  id : Nat
  description : String
  completed : Bool
deriving DecidableEq, Repr

/-- Rust storage struct `Todo { tasks: Vec<Task>, next_id: u32 }`. -/
structure Todo where
  tasks : List Task
  next_id : Nat
deriving DecidableEq, Repr

/-- Constructor `Todo::new`: empty vector, `next_id = 0`. -/
def Todo.new : Todo := { tasks := [], next_id := 0 }

/-- Model of `u32::saturating_add(1)`: advance by one, clamp at `U32MAX`. -/
def satSucc (n : Nat) : Nat := min (n + 1) U32MAX

/-- Message `add_task`: read `next_id` as the fresh id, push
`Task { id, description, completed: false }` to the end of the vector,
saturating-increment `next_id`, and return the id. -/
def Todo.add_task (s : Todo) (description : String) : Nat × Todo :=
  let id := s.next_id
  (id, { tasks := s.tasks ++ [{ id := id, description := description, completed := false }],
         next_id := satSucc s.next_id })

/-- Body of `complete_task`: `iter_mut().find(|t| t.id == id)` walks the vector
front to back and sets `completed = true` on the first record whose id matches,
returning whether a match was found. -/
def completeFirst : List Task → Nat → Bool × List Task
  | [], _ => (false, [])
  | t :: ts, i =>
    if t.id = i then (true, { t with completed := true } :: ts)
    else ((completeFirst ts i).1, t :: (completeFirst ts i).2)

/-- Message `complete_task`. -/
def Todo.complete_task (s : Todo) (i : Nat) : Bool × Todo :=
  ((completeFirst s.tasks i).1, { s with tasks := (completeFirst s.tasks i).2 })

/-- Body of `remove_task`: `iter().position(|t| t.id == id)` finds the first
matching index and `Vec::remove` deletes it, shifting later records left. -/
def removeFirst : List Task → Nat → Bool × List Task
  | [], _ => (false, [])
  | t :: ts, i =>
    if t.id = i then (true, ts)
    else ((removeFirst ts i).1, t :: (removeFirst ts i).2)

/-- Message `remove_task`. -/
def Todo.remove_task (s : Todo) (i : Nat) : Bool × Todo :=
  ((removeFirst s.tasks i).1, { s with tasks := (removeFirst s.tasks i).2 })

/-- Message `get_tasks`: a snapshot of the whole vector. -/
def Todo.get_tasks (s : Todo) : List Task := s.tasks

/-- Message `get_task`: `iter().find(|t| t.id == id).cloned()`. -/
def Todo.get_task (s : Todo) (i : Nat) : Option Task :=
  s.tasks.find? (fun t => t.id == i)

/-- One call to any of the five public messages. -/
inductive Op where
  | add (description : String)
  | complete (i : Nat)
  | remove (i : Nat)
  | list
  | get (i : Nat)
deriving DecidableEq, Repr

/-- State transition of one public call (`list` and `get` are read-only). -/
def step (s : Todo) : Op → Todo
  | .add d => (s.add_task d).2
  | .complete i => (s.complete_task i).2
  | .remove i => (s.remove_task i).2
  | .list => s
  | .get _ => s

/-- Run a sequence of public calls from a given state. -/
def run (s : Todo) : List Op → Todo
  | [] => s
  | op :: ops => run (step s op) ops

/-- Number of `add` calls in a trace (every `add` call succeeds). -/
def addCount : List Op → Nat
  | [] => 0
  | Op.add _ :: ops => addCount ops + 1
  | _ :: ops => addCount ops

/-- Number of `remove_task` calls in a trace that return `true`, evaluated
along the run from `s`. -/
def removeSuccessCount (s : Todo) : List Op → Nat
  | [] => 0
  | Op.remove i :: ops =>
    (if (s.remove_task i).1 = true then 1 else 0) +
      removeSuccessCount (step s (Op.remove i)) ops
  | op :: ops => removeSuccessCount (step s op) ops

/-- Ids allocated by the `add` calls of a trace, in call order, evaluated
along the run from `s`. -/
def addedIds (s : Todo) : List Op → List Nat
  | [] => []
  | Op.add d :: ops => s.next_id :: addedIds (step s (Op.add d)) ops
  | op :: ops => addedIds (step s op) ops

/-- Store invariant: while `next_id` has not saturated, the ids in the store
are pairwise distinct and all strictly below `next_id`. -/
def Inv (s : Todo) : Prop :=
  s.next_id < U32MAX →
    (s.tasks.map Task.id).Nodup ∧ ∀ x ∈ s.tasks.map Task.id, x < s.next_id

/-- When no record's id matches, the `complete_task` scan finds nothing and
leaves the vector untouched. -/
theorem completeFirst_not_found (ts : List Task) (i : Nat)
    (h : ∀ t ∈ ts, t.id ≠ i) : completeFirst ts i = (false, ts) := by
  induction ts with
  | nil => rfl
  | cons a ts ih =>
    have ha : a.id ≠ i := h a (by simp)
    have ih' := ih (fun u hu => h u (by simp [hu]))
    simp [completeFirst, ha, ih']

/-- When some record's id matches, the vector splits as
`pre ++ t :: post` around the first match `t`, and the scan flips exactly
that record's flag. -/
theorem completeFirst_found (ts : List Task) (i : Nat)
    (h : ∃ t ∈ ts, t.id = i) :
    ∃ pre t post, ts = pre ++ t :: post ∧ (∀ u ∈ pre, u.id ≠ i) ∧ t.id = i ∧
      completeFirst ts i = (true, pre ++ { t with completed := true } :: post) := by
  induction ts with
  | nil => simp at h
  | cons a ts ih =>
    by_cases ha : a.id = i
    · exact ⟨[], a, ts, rfl, by simp, ha, by simp [completeFirst, ha]⟩
    · have h' : ∃ t ∈ ts, t.id = i := by
        obtain ⟨t, ht, hti⟩ := h
        rcases List.mem_cons.mp ht with rfl | htl
        · exact absurd hti ha
        · exact ⟨t, htl, hti⟩
      obtain ⟨pre, t, post, hts, hpre, hti, hcf⟩ := ih h'
      refine ⟨a :: pre, t, post, by simp [hts], ?_, hti, ?_⟩
      · intro u hu
        rcases List.mem_cons.mp hu with rfl | hul
        · exact ha
        · exact hpre u hul
      · simp [completeFirst, ha, hcf]

/-- The `complete_task` scan never changes the sequence of ids. -/
theorem completeFirst_map_id (ts : List Task) (i : Nat) :
    ((completeFirst ts i).2).map Task.id = ts.map Task.id := by
  induction ts with
  | nil => rfl
  | cons a ts ih =>
    by_cases ha : a.id = i <;> simp [completeFirst, ha, ih]

/-- When no record's id matches, the `remove_task` scan finds nothing and
leaves the vector untouched. -/
theorem removeFirst_not_found (ts : List Task) (i : Nat)
    (h : ∀ t ∈ ts, t.id ≠ i) : removeFirst ts i = (false, ts) := by
  induction ts with
  | nil => rfl
  | cons a ts ih =>
    have ha : a.id ≠ i := h a (by simp)
    have ih' := ih (fun u hu => h u (by simp [hu]))
    simp [removeFirst, ha, ih']

/-- When some record's id matches, the vector splits as `pre ++ t :: post`
around the first match `t`, and the scan deletes exactly that record. -/
theorem removeFirst_found (ts : List Task) (i : Nat)
    (h : ∃ t ∈ ts, t.id = i) :
    ∃ pre t post, ts = pre ++ t :: post ∧ (∀ u ∈ pre, u.id ≠ i) ∧ t.id = i ∧
      removeFirst ts i = (true, pre ++ post) := by
  induction ts with
  | nil => simp at h
  | cons a ts ih =>
    by_cases ha : a.id = i
    · exact ⟨[], a, ts, rfl, by simp, ha, by simp [removeFirst, ha]⟩
    · have h' : ∃ t ∈ ts, t.id = i := by
        obtain ⟨t, ht, hti⟩ := h
        rcases List.mem_cons.mp ht with rfl | htl
        · exact absurd hti ha
        · exact ⟨t, htl, hti⟩
      obtain ⟨pre, t, post, hts, hpre, hti, hrf⟩ := ih h'
      refine ⟨a :: pre, t, post, by simp [hts], ?_, hti, ?_⟩
      · intro u hu
        rcases List.mem_cons.mp hu with rfl | hul
        · exact ha
        · exact hpre u hul
      · simp [removeFirst, ha, hrf]

/-- The `remove_task` scan returns `true` exactly when some record matches. -/
theorem removeFirst_fst (ts : List Task) (i : Nat) :
    (removeFirst ts i).1 = true ↔ ∃ t ∈ ts, t.id = i := by
  constructor
  · intro htrue
    by_contra hno
    push_neg at hno
    have := removeFirst_not_found ts i hno
    rw [this] at htrue
    exact Bool.false_ne_true htrue
  · intro h
    obtain ⟨_, _, _, _, _, _, hrf⟩ := removeFirst_found ts i h
    rw [hrf]

/-- The `remove_task` scan keeps the surviving records in order: its result is
a sublist of the input. -/
theorem removeFirst_sublist (ts : List Task) (i : Nat) :
    List.Sublist (removeFirst ts i).2 ts := by
  induction ts with
  | nil => simp [removeFirst]
  | cons a ts ih =>
    by_cases ha : a.id = i
    · simp only [removeFirst, if_pos ha]
      exact List.sublist_cons_self a ts
    · simp only [removeFirst, if_neg ha]
      exact List.Sublist.cons₂ a ih

/-- The `remove_task` scan shortens the vector by one exactly when it
reports success. -/
theorem removeFirst_length (ts : List Task) (i : Nat) :
    ts.length =
      (removeFirst ts i).2.length + (if (removeFirst ts i).1 = true then 1 else 0) := by
  induction ts with
  | nil => rfl
  | cons a ts ih =>
    by_cases ha : a.id = i
    · simp [removeFirst, ha]
    · by_cases hb : (removeFirst ts i).1 = true <;>
        simp [removeFirst, ha, hb] at ih ⊢ <;> omega

/-- The scan `find?` returns the first element satisfying the predicate: it
skips a prefix of failures and stops at the first success. -/
theorem find_first (p : Task → Bool) (pre : List Task) (x : Task) (post : List Task)
    (hpre : ∀ u ∈ pre, p u = false) (hx : p x = true) :
    (pre ++ x :: post).find? p = some x := by
  induction pre with
  | nil => simp [List.find?_cons, hx]
  | cons a pre ih =>
    have ha : p a = false := hpre a (by simp)
    have ih' := ih (fun u hu => hpre u (by simp [hu]))
    simp [List.find?_cons, ha, ih']

/-- Explicit form of the `complete_task` scan on a decomposed vector: it skips
the non-matching prefix and flips the flag of the first match. -/
theorem completeFirst_app (i : Nat) (pre : List Task) (x : Task) (post : List Task)
    (hpre : ∀ u ∈ pre, u.id ≠ i) (hx : x.id = i) :
    completeFirst (pre ++ x :: post) i = (true, pre ++ { x with completed := true } :: post) := by
  induction pre with
  | nil => simp [completeFirst, hx]
  | cons a pre ih =>
    have ha : a.id ≠ i := hpre a (by simp)
    have ih' := ih (fun u hu => hpre u (by simp [hu]))
    simp [completeFirst, ha, ih']

/-- C1: for every store state and description, `add_task` returns the current
`next_id`, appends exactly the task `{id := next_id, description, completed := false}`
to the end of the sequence (so the size grows by one), and saturating-increments
`next_id`.  It is a total function: it never fails. -/
theorem add_task_spec (s : Todo) (d : String) :
    (s.add_task d).1 = s.next_id ∧
    (s.add_task d).2.tasks =
      s.tasks ++ [{ id := s.next_id, description := d, completed := false }] ∧
    (s.add_task d).2.tasks.length = s.tasks.length + 1 ∧
    (s.add_task d).2.next_id = min (s.next_id + 1) U32MAX := by
  refine ⟨rfl, rfl, ?_, rfl⟩
  simp [Todo.add_task]

/-- C3: on a store containing a record with the given id, `complete_task`
returns `true`, a subsequent `get_task` yields a task with that id whose
`completed` flag is `true`, and a second `complete_task` on the same id again
returns `true` and leaves the store exactly as after the first call (so the
flag remains `true`). -/
theorem complete_task_existing (s : Todo) (i : Nat) (h : ∃ t ∈ s.tasks, t.id = i) :
    (s.complete_task i).1 = true ∧
    (∃ t, (s.complete_task i).2.get_task i = some t ∧ t.id = i ∧ t.completed = true) ∧
    ((s.complete_task i).2.complete_task i).1 = true ∧
    ((s.complete_task i).2.complete_task i).2 = (s.complete_task i).2 := by
  obtain ⟨pre, t, post, hts, hpre, hti, hcf⟩ := completeFirst_found s.tasks i h
  have htasks : (s.complete_task i).2.tasks = pre ++ { t with completed := true } :: post := by
    simp [Todo.complete_task, hcf]
  have hcf2 : completeFirst (pre ++ { t with completed := true } :: post) i =
      (true, pre ++ { t with completed := true } :: post) :=
    completeFirst_app i pre { t with completed := true } post hpre hti
  refine ⟨by simp [Todo.complete_task, hcf], ?_, ?_, ?_⟩
  · refine ⟨{ t with completed := true }, ?_, hti, rfl⟩
    rw [Todo.get_task, htasks]
    exact find_first _ pre _ post (fun u hu => by simp [hpre u hu]) (by simp [hti])
  · simp [Todo.complete_task, hcf, hcf2]
  · simp [Todo.complete_task, hcf, hcf2]

/-- Witness for C3 at a concrete store. -/
theorem complete_task_existing_witness :
    (∃ t ∈ (⟨[⟨0, "a", false⟩], 1⟩ : Todo).tasks, t.id = 0) ∧
    (((⟨[⟨0, "a", false⟩], 1⟩ : Todo).complete_task 0).1 = true ∧
      (∃ t, ((⟨[⟨0, "a", false⟩], 1⟩ : Todo).complete_task 0).2.get_task 0 = some t ∧
        t.id = 0 ∧ t.completed = true) ∧
      (((⟨[⟨0, "a", false⟩], 1⟩ : Todo).complete_task 0).2.complete_task 0).1 = true ∧
      (((⟨[⟨0, "a", false⟩], 1⟩ : Todo).complete_task 0).2.complete_task 0).2 =
        ((⟨[⟨0, "a", false⟩], 1⟩ : Todo).complete_task 0).2) :=
  ⟨⟨⟨0, "a", false⟩, by simp, rfl⟩,
    complete_task_existing ⟨[⟨0, "a", false⟩], 1⟩ 0 ⟨⟨0, "a", false⟩, by simp, rfl⟩⟩

/-- C4: on a store containing no record with the given id, `complete_task`
and `remove_task` return `false` and leave the store unchanged, and
`get_task` returns `none`; none of the three can fail in any other way. -/
theorem missing_id_spec (s : Todo) (i : Nat) (h : ∀ t ∈ s.tasks, t.id ≠ i) :
    s.complete_task i = (false, s) ∧ s.remove_task i = (false, s) ∧ s.get_task i = none := by
  have hc := completeFirst_not_found s.tasks i h
  have hr := removeFirst_not_found s.tasks i h
  refine ⟨by simp [Todo.complete_task, hc], by simp [Todo.remove_task, hr], ?_⟩
  rw [Todo.get_task, List.find?_eq_none]
  intro x hx
  simpa using h x hx

/-- Witness for C4 at a concrete store and an id never issued there. -/
theorem missing_id_spec_witness :
    (∀ t ∈ (⟨[⟨0, "a", false⟩], 1⟩ : Todo).tasks, t.id ≠ 5) ∧
    ((⟨[⟨0, "a", false⟩], 1⟩ : Todo).complete_task 5 = (false, ⟨[⟨0, "a", false⟩], 1⟩) ∧
      (⟨[⟨0, "a", false⟩], 1⟩ : Todo).remove_task 5 = (false, ⟨[⟨0, "a", false⟩], 1⟩) ∧
      (⟨[⟨0, "a", false⟩], 1⟩ : Todo).get_task 5 = none) :=
  ⟨by decide, missing_id_spec ⟨[⟨0, "a", false⟩], 1⟩ 5 (by decide)⟩

/-- C10: when `complete_task` finds a match, the vector splits as
`pre ++ t :: post` around the first record `t` whose id matches; the call
replaces `t` by `t` with only its `completed` field set to `true` (same id,
same description), keeps `pre` and `post` and hence every other record, the
order and the length of the sequence, and leaves `next_id` unchanged. -/
theorem complete_task_frame (s : Todo) (i : Nat) (h : ∃ t ∈ s.tasks, t.id = i) :
    (s.complete_task i).1 = true ∧
    (s.complete_task i).2.next_id = s.next_id ∧
    (s.complete_task i).2.tasks.length = s.tasks.length ∧
    ∃ pre t post, s.tasks = pre ++ t :: post ∧ (∀ u ∈ pre, u.id ≠ i) ∧ t.id = i ∧
      (s.complete_task i).2.tasks = pre ++ { t with completed := true } :: post := by
  obtain ⟨pre, t, post, hts, hpre, hti, hcf⟩ := completeFirst_found s.tasks i h
  have htasks : (s.complete_task i).2.tasks = pre ++ { t with completed := true } :: post := by
    simp [Todo.complete_task, hcf]
  refine ⟨by simp [Todo.complete_task, hcf], rfl, ?_, pre, t, post, hts, hpre, hti, htasks⟩
  rw [htasks, hts]
  simp

/-- Witness for C10 at a concrete two-task store. -/
theorem complete_task_frame_witness :
    (∃ t ∈ (⟨[⟨0, "a", false⟩, ⟨1, "b", false⟩], 2⟩ : Todo).tasks, t.id = 1) ∧
    (((⟨[⟨0, "a", false⟩, ⟨1, "b", false⟩], 2⟩ : Todo).complete_task 1).1 = true ∧
      ((⟨[⟨0, "a", false⟩, ⟨1, "b", false⟩], 2⟩ : Todo).complete_task 1).2.next_id = 2 ∧
      ((⟨[⟨0, "a", false⟩, ⟨1, "b", false⟩], 2⟩ : Todo).complete_task 1).2.tasks.length =
        (⟨[⟨0, "a", false⟩, ⟨1, "b", false⟩], 2⟩ : Todo).tasks.length ∧
      ∃ pre t post,
        (⟨[⟨0, "a", false⟩, ⟨1, "b", false⟩], 2⟩ : Todo).tasks = pre ++ t :: post ∧
        (∀ u ∈ pre, u.id ≠ 1) ∧ t.id = 1 ∧
        ((⟨[⟨0, "a", false⟩, ⟨1, "b", false⟩], 2⟩ : Todo).complete_task 1).2.tasks =
          pre ++ { t with completed := true } :: post) :=
  ⟨⟨⟨1, "b", false⟩, by simp, rfl⟩,
    complete_task_frame ⟨[⟨0, "a", false⟩, ⟨1, "b", false⟩], 2⟩ 1
      ⟨⟨1, "b", false⟩, by simp, rfl⟩⟩

/-- C5: `remove_task` returns `true` exactly when a record with the id is
present; it never touches `next_id`; on success the vector splits as
`pre ++ t :: post` around the first match `t` and becomes `pre ++ post`
(later records shift left with their ids unchanged); and when ids are unique
(as in every reachable state before id-space saturation) a successful remove
followed by a second `remove_task` of the same id returns `false`. -/
theorem remove_task_spec (s : Todo) (i : Nat) :
    ((s.remove_task i).1 = true ↔ ∃ t ∈ s.tasks, t.id = i) ∧
    (s.remove_task i).2.next_id = s.next_id ∧
    ((s.remove_task i).1 = true →
      ∃ pre t post, s.tasks = pre ++ t :: post ∧ (∀ u ∈ pre, u.id ≠ i) ∧ t.id = i ∧
        (s.remove_task i).2.tasks = pre ++ post) ∧
    ((s.tasks.map Task.id).Nodup → (s.remove_task i).1 = true →
      ((s.remove_task i).2.remove_task i).1 = false) := by
  refine ⟨removeFirst_fst s.tasks i, rfl, ?_, ?_⟩
  · intro htrue
    obtain ⟨pre, t, post, hts, hpre, hti, hrf⟩ :=
      removeFirst_found s.tasks i ((removeFirst_fst s.tasks i).mp htrue)
    exact ⟨pre, t, post, hts, hpre, hti, by simp [Todo.remove_task, hrf]⟩
  · intro hnodup htrue
    obtain ⟨pre, t, post, hts, hpre, hti, hrf⟩ :=
      removeFirst_found s.tasks i ((removeFirst_fst s.tasks i).mp htrue)
    have hmem : t.id ∉ (pre ++ post).map Task.id := by
      rw [hts, List.map_append, List.map_cons, List.nodup_middle] at hnodup
      rw [List.map_append]
      exact (List.nodup_cons.mp hnodup).1
    have hrest : ∀ u ∈ pre ++ post, u.id ≠ i := by
      intro u hu hui
      exact hmem (by rw [hti, ← hui]; exact List.mem_map_of_mem Task.id hu)
    have h2 : removeFirst (pre ++ post) i = (false, pre ++ post) :=
      removeFirst_not_found (pre ++ post) i hrest
    simp [Todo.remove_task, hrf, h2]

/-- Witness for C5 at a concrete store with distinct ids. -/
theorem remove_task_spec_witness :
    (((⟨[⟨0, "a", false⟩, ⟨1, "b", true⟩], 2⟩ : Todo).tasks.map Task.id).Nodup ∧
      ((⟨[⟨0, "a", false⟩, ⟨1, "b", true⟩], 2⟩ : Todo).remove_task 0).1 = true) ∧
    ((⟨[⟨0, "a", false⟩, ⟨1, "b", true⟩], 2⟩ : Todo).remove_task 0).2.next_id = 2 ∧
    (∃ pre t post,
      (⟨[⟨0, "a", false⟩, ⟨1, "b", true⟩], 2⟩ : Todo).tasks = pre ++ t :: post ∧
      (∀ u ∈ pre, u.id ≠ 0) ∧ t.id = 0 ∧
      ((⟨[⟨0, "a", false⟩, ⟨1, "b", true⟩], 2⟩ : Todo).remove_task 0).2.tasks = pre ++ post) ∧
    (((⟨[⟨0, "a", false⟩, ⟨1, "b", true⟩], 2⟩ : Todo).remove_task 0).2.remove_task 0).1 =
      false :=
  ⟨⟨by decide, by decide⟩,
    (remove_task_spec ⟨[⟨0, "a", false⟩, ⟨1, "b", true⟩], 2⟩ 0).2.1,
    (remove_task_spec ⟨[⟨0, "a", false⟩, ⟨1, "b", true⟩], 2⟩ 0).2.2.1 (by decide),
    (remove_task_spec ⟨[⟨0, "a", false⟩, ⟨1, "b", true⟩], 2⟩ 0).2.2.2 (by decide) (by decide)⟩

/-- The `complete_task` scan never changes the length of the vector. -/
theorem completeFirst_length (ts : List Task) (i : Nat) :
    (completeFirst ts i).2.length = ts.length := by
  have h := congrArg List.length (completeFirst_map_id ts i)
  simpa using h

/-- Every public call preserves the store invariant `Inv`. -/
theorem step_inv (s : Todo) (op : Op) (h : Inv s) : Inv (step s op) := by
  cases op with
  | add d =>
    intro hlt
    have hsat : satSucc s.next_id = s.next_id + 1 := by
      simp only [step, Todo.add_task, satSucc] at hlt ⊢
      omega
    have hslt : s.next_id < U32MAX := by
      simp only [step, Todo.add_task, satSucc] at hlt
      omega
    obtain ⟨h1, h2⟩ := h hslt
    simp only [step, Todo.add_task, List.map_append, List.map_cons, List.map_nil, hsat]
    constructor
    · rw [List.nodup_middle]
      rw [List.nodup_cons]
      refine ⟨?_, by simpa using h1⟩
      intro hmem
      have := h2 s.next_id (by simpa using hmem)
      omega
    · intro x hx
      rcases List.mem_append.mp hx with hxl | hxr
      · have := h2 x hxl
        omega
      · simp at hxr
        omega
  | complete i =>
    intro hlt
    have hmap : ((step s (Op.complete i)).tasks).map Task.id = s.tasks.map Task.id := by
      simp only [step, Todo.complete_task]
      exact completeFirst_map_id s.tasks i
    have hnid : (step s (Op.complete i)).next_id = s.next_id := rfl
    rw [hnid] at hlt
    obtain ⟨h1, h2⟩ := h hlt
    rw [hmap, hnid]
    exact ⟨h1, h2⟩
  | remove i =>
    intro hlt
    have hsub : List.Sublist (((step s (Op.remove i)).tasks).map Task.id)
        (s.tasks.map Task.id) := by
      simp only [step, Todo.remove_task]
      exact (removeFirst_sublist s.tasks i).map Task.id
    have hnid : (step s (Op.remove i)).next_id = s.next_id := rfl
    rw [hnid] at hlt
    obtain ⟨h1, h2⟩ := h hlt
    rw [hnid]
    exact ⟨h1.sublist hsub, fun x hx => h2 x (hsub.subset hx)⟩
  | list => exact h
  | get i => exact h

/-- Running any trace preserves the store invariant `Inv`. -/
theorem run_inv (ops : List Op) : ∀ s : Todo, Inv s → Inv (run s ops) := by
  induction ops with
  | nil => exact fun s h => h
  | cons op ops ih => exact fun s h => ih (step s op) (step_inv s op h)

/-- C2: in every state reachable from the fresh store by public calls, as
long as `next_id` has not saturated at `U32MAX`, no two records share an id
and `next_id` is strictly greater than the id of every record. -/
theorem reachable_ids_unique (ops : List Op)
    (h : (run Todo.new ops).next_id < U32MAX) :
    ((run Todo.new ops).tasks.map Task.id).Nodup ∧
    ∀ t ∈ (run Todo.new ops).tasks, t.id < (run Todo.new ops).next_id := by
  have hnew : Inv Todo.new := by
    intro _
    exact ⟨by simp [Todo.new], by simp [Todo.new]⟩
  obtain ⟨h1, h2⟩ := run_inv ops Todo.new hnew h
  exact ⟨h1, fun t ht => h2 t.id (List.mem_map_of_mem Task.id ht)⟩

/-- Witness for C2 on the trace add, add, remove. -/
theorem reachable_ids_unique_witness :
    (run Todo.new [Op.add "a", Op.add "b", Op.remove 0]).next_id < U32MAX ∧
    (((run Todo.new [Op.add "a", Op.add "b", Op.remove 0]).tasks.map Task.id).Nodup ∧
      ∀ t ∈ (run Todo.new [Op.add "a", Op.add "b", Op.remove 0]).tasks,
        t.id < (run Todo.new [Op.add "a", Op.add "b", Op.remove 0]).next_id) :=
  ⟨by decide, reachable_ids_unique [Op.add "a", Op.add "b", Op.remove 0] (by decide)⟩

/-- Bookkeeping along a run from any start state: the store length plus the
number of successful removes equals the start length plus the number of adds,
and the surviving ids are an in-order sublist of the start ids followed by
the ids allocated by the trace's adds. -/
theorem run_length_order (ops : List Op) : ∀ s : Todo,
    (run s ops).tasks.length + removeSuccessCount s ops =
      s.tasks.length + addCount ops ∧
    List.Sublist ((run s ops).tasks.map Task.id)
      (s.tasks.map Task.id ++ addedIds s ops) := by
  induction ops with
  | nil =>
    intro s
    exact ⟨by simp [run, removeSuccessCount, addCount], by simp [run, addedIds]⟩
  | cons op ops ih =>
    intro s
    obtain ⟨ih1, ih2⟩ := ih (step s op)
    cases op with
    | add d =>
      have hlen : (step s (Op.add d)).tasks.length = s.tasks.length + 1 := by
        simp [step, Todo.add_task]
      have hmap : (step s (Op.add d)).tasks.map Task.id =
          s.tasks.map Task.id ++ [s.next_id] := by
        simp [step, Todo.add_task]
      constructor
      · simp only [run, removeSuccessCount, addCount]
        rw [hlen] at ih1
        omega
      · simp only [run, addedIds]
        rw [hmap] at ih2
        rw [show s.tasks.map Task.id ++ s.next_id :: addedIds (step s (Op.add d)) ops =
            (s.tasks.map Task.id ++ [s.next_id]) ++ addedIds (step s (Op.add d)) ops by
          simp]
        exact ih2
    | complete i =>
      have hlen : (step s (Op.complete i)).tasks.length = s.tasks.length := by
        simp only [step, Todo.complete_task]
        exact completeFirst_length s.tasks i
      have hmap : (step s (Op.complete i)).tasks.map Task.id = s.tasks.map Task.id := by
        simp only [step, Todo.complete_task]
        exact completeFirst_map_id s.tasks i
      constructor
      · simp only [run, removeSuccessCount, addCount]
        rw [hlen] at ih1
        omega
      · simp only [run, addedIds]
        rw [hmap] at ih2
        exact ih2
    | remove i =>
      have hlen : s.tasks.length =
          (step s (Op.remove i)).tasks.length +
            (if (s.remove_task i).1 = true then 1 else 0) := by
        simp only [step, Todo.remove_task]
        exact removeFirst_length s.tasks i
      have hsub : List.Sublist ((step s (Op.remove i)).tasks.map Task.id)
          (s.tasks.map Task.id) := by
        simp only [step, Todo.remove_task]
        exact (removeFirst_sublist s.tasks i).map Task.id
      constructor
      · simp only [run, removeSuccessCount, addCount]
        by_cases hb : (s.remove_task i).1 = true <;> simp [hb] at hlen ⊢ <;> omega
      · simp only [run, addedIds]
        exact ih2.trans ((hsub.append_right (addedIds (step s (Op.remove i)) ops)))
    | list =>
      exact ⟨by simpa [run, removeSuccessCount, addCount, step] using ih1,
        by simpa [run, addedIds, step] using ih2⟩
    | get i =>
      exact ⟨by simpa [run, removeSuccessCount, addCount, step] using ih1,
        by simpa [run, addedIds, step] using ih2⟩

/-- C6: after any trace from the fresh store, the length of the sequence
returned by `get_tasks` plus the number of `remove_task` calls that returned
`true` equals the number of `add_task` calls (so the length is adds minus
successful removes), and the ids of the surviving records form an in-order
sublist of the ids allocated by the `add_task` calls: survivors appear in the
relative order of their original adds. -/
theorem list_length_order (ops : List Op) :
    ((run Todo.new ops).get_tasks).length + removeSuccessCount Todo.new ops =
      addCount ops ∧
    List.Sublist (((run Todo.new ops).get_tasks).map Task.id)
      (addedIds Todo.new ops) := by
  obtain ⟨h1, h2⟩ := run_length_order ops Todo.new
  exact ⟨by simpa [Todo.new, Todo.get_tasks] using h1,
    by simpa [Todo.new, Todo.get_tasks] using h2⟩

/-- C7: `next_id` starts at 0 in the fresh store; no public call decreases it
(for any representable value); `add_task` advances it by exactly 1 while it is
below `U32MAX` and clamps it at `U32MAX` instead of wrapping; and an
`add_task` made while `next_id = U32MAX` allocates `U32MAX` again, so if a
record with id `U32MAX` is already present the store ends up holding at least
two records with id `U32MAX`. -/
theorem next_id_counter (s : Todo) (d : String) (op : Op) :
    Todo.new.next_id = 0 ∧
    (s.next_id ≤ U32MAX → s.next_id ≤ (step s op).next_id) ∧
    (s.add_task d).2.next_id = min (s.next_id + 1) U32MAX ∧
    (s.next_id < U32MAX → (s.add_task d).2.next_id = s.next_id + 1) ∧
    (s.next_id = U32MAX →
      (s.add_task d).1 = U32MAX ∧ (s.add_task d).2.next_id = U32MAX ∧
      ((∃ t ∈ s.tasks, t.id = U32MAX) →
        2 ≤ (s.add_task d).2.tasks.countP (fun t => t.id == U32MAX))) := by
  refine ⟨rfl, ?_, rfl, ?_, ?_⟩
  · intro hle
    cases op with
    | add e =>
      simp only [step, Todo.add_task, satSucc]
      omega
    | complete i => exact le_refl _
    | remove i => exact le_refl _
    | list => exact le_refl _
    | get i => exact le_refl _
  · intro hlt
    simp only [Todo.add_task, satSucc]
    omega
  · intro hmax
    refine ⟨hmax, by simp [Todo.add_task, satSucc, hmax], ?_⟩
    intro hex
    obtain ⟨t, ht, hti⟩ := hex
    have hnew : (s.add_task d).2.tasks =
        s.tasks ++ [{ id := s.next_id, description := d, completed := false }] := rfl
    rw [hnew, List.countP_append]
    have h1 : 0 < s.tasks.countP (fun t => t.id == U32MAX) :=
      List.countP_pos_iff.mpr ⟨t, ht, by simp [hti]⟩
    have h2 : List.countP (fun t => t.id == U32MAX)
        ([{ id := s.next_id, description := d, completed := false }] : List Task) = 1 := by
      simp [hmax]
    omega

/-- Witness for C7 at a saturated store already holding a task with the
maximum id. -/
theorem next_id_counter_witness :
    (⟨[⟨U32MAX, "old", true⟩], U32MAX⟩ : Todo).next_id = U32MAX ∧
    ((⟨[⟨U32MAX, "old", true⟩], U32MAX⟩ : Todo).add_task "x").1 = U32MAX ∧
    ((⟨[⟨U32MAX, "old", true⟩], U32MAX⟩ : Todo).add_task "x").2.next_id = U32MAX ∧
    2 ≤ ((⟨[⟨U32MAX, "old", true⟩], U32MAX⟩ : Todo).add_task "x").2.tasks.countP
          (fun t => t.id == U32MAX) :=
  have h := (next_id_counter ⟨[⟨U32MAX, "old", true⟩], U32MAX⟩ "x" Op.list).2.2.2.2 rfl
  ⟨rfl, h.1, h.2.1, h.2.2 ⟨⟨U32MAX, "old", true⟩, by simp, rfl⟩⟩

/-- C8 as stated is false: on a store that already holds a record whose id
equals `next_id` (reachable once `next_id` has saturated at `U32MAX`),
`get_task` of the id returned by `add_task` finds the older record, whose
description and flag differ from the freshly added task. -/
theorem add_get_roundtrip_cex :
    ¬ ∀ (s : Todo) (x : String),
        ∃ t, (s.add_task x).2.get_task (s.add_task x).1 = some t ∧
          t.id = (s.add_task x).1 ∧ t.description = x ∧ t.completed = false := by
  intro hall
  obtain ⟨t, ht, hid, hdesc, hcomp⟩ := hall ⟨[⟨U32MAX, "old", true⟩], U32MAX⟩ "x"
  have hval : ((⟨[⟨U32MAX, "old", true⟩], U32MAX⟩ : Todo).add_task "x").2.get_task
      ((⟨[⟨U32MAX, "old", true⟩], U32MAX⟩ : Todo).add_task "x").1 =
      some ⟨U32MAX, "old", true⟩ := by decide
  rw [hval] at ht
  have hts := ht.symm
  injection hts with hteq
  rw [hteq] at hcomp
  simp at hcomp

/-- C8 (amended): on every store in which no current record's id equals
`next_id` — true of every reachable state before id-space saturation —
`add_task x` immediately followed by `get_task` of the returned id yields the
task with that id, description `x`, and `completed = false`. -/
theorem add_get_roundtrip (s : Todo) (x : String)
    (h : ∀ t ∈ s.tasks, t.id ≠ s.next_id) :
    (s.add_task x).2.get_task (s.add_task x).1 =
      some { id := s.next_id, description := x, completed := false } := by
  have htasks : (s.add_task x).2.tasks =
      s.tasks ++ { id := s.next_id, description := x, completed := false } :: [] := rfl
  have hid : (s.add_task x).1 = s.next_id := rfl
  rw [Todo.get_task, htasks, hid]
  exact find_first _ s.tasks _ [] (fun u hu => by simp [h u hu]) (by simp)

/-- Witness for the amended C8 at a concrete store. -/
theorem add_get_roundtrip_witness :
    (∀ t ∈ (⟨[⟨0, "a", false⟩], 1⟩ : Todo).tasks, t.id ≠ 1) ∧
    ((⟨[⟨0, "a", false⟩], 1⟩ : Todo).add_task "b").2.get_task
        ((⟨[⟨0, "a", false⟩], 1⟩ : Todo).add_task "b").1 =
      some ⟨1, "b", false⟩ :=
  ⟨by decide, add_get_roundtrip ⟨[⟨0, "a", false⟩], 1⟩ "b" (by decide)⟩

/-- C9: no public call re-opens a task. Every record carrying
`completed = false` after a call already existed unchanged before it, except
the record freshly created by `add_task` (which is created with
`completed = false`); and every record carrying `completed = true` before a
call survives it unchanged, unless the call is `remove_task` of its id. -/
theorem completed_monotone (s : Todo) (op : Op) :
    (∀ t ∈ (step s op).tasks, t.completed = false →
      t ∈ s.tasks ∨
        ∃ d, op = Op.add d ∧
          t = { id := s.next_id, description := d, completed := false }) ∧
    (∀ t ∈ s.tasks, t.completed = true →
      t ∈ (step s op).tasks ∨ ∃ j, op = Op.remove j ∧ t.id = j) := by
  cases op with
  | add d =>
    constructor
    · intro t ht _
      rcases List.mem_append.mp ht with hl | hr
      · exact Or.inl hl
      · simp at hr
        exact Or.inr ⟨d, rfl, hr⟩
    · intro t ht _
      exact Or.inl (List.mem_append_left _ ht)
  | complete i =>
    by_cases hex : ∃ t ∈ s.tasks, t.id = i
    · obtain ⟨pre, x, post, hts, hpre, hxi, hcf⟩ := completeFirst_found s.tasks i hex
      have htasks : (step s (Op.complete i)).tasks =
          pre ++ { x with completed := true } :: post := by
        simp [step, Todo.complete_task, hcf]
      constructor
      · intro t ht htf
        rw [htasks] at ht
        rcases List.mem_append.mp ht with hl | hr
        · exact Or.inl (by rw [hts]; exact List.mem_append_left _ hl)
        · rcases List.mem_cons.mp hr with rfl | hpost
          · exact absurd htf (by simp)
          · exact Or.inl (by rw [hts]; exact List.mem_append_right _ (List.mem_cons_of_mem _ hpost))
      · intro t ht htt
        rw [hts] at ht
        rw [htasks]
        rcases List.mem_append.mp ht with hl | hr
        · exact Or.inl (List.mem_append_left _ hl)
        · rcases List.mem_cons.mp hr with rfl | hpost
          · have hxx : ({ t with completed := true } : Task) = t := by
              cases t
              simp only at htt
              simp [htt]
            rw [hxx]
            exact Or.inl (List.mem_append_right _ (List.mem_cons_self _ _))
          · exact Or.inl (List.mem_append_right _ (List.mem_cons_of_mem _ hpost))
    · push_neg at hex
      have hcf := completeFirst_not_found s.tasks i hex
      have htasks : (step s (Op.complete i)).tasks = s.tasks := by
        simp [step, Todo.complete_task, hcf]
      rw [htasks]
      exact ⟨fun t ht _ => Or.inl ht, fun t ht _ => Or.inl ht⟩
  | remove i =>
    by_cases hex : ∃ t ∈ s.tasks, t.id = i
    · obtain ⟨pre, x, post, hts, hpre, hxi, hrf⟩ := removeFirst_found s.tasks i hex
      have htasks : (step s (Op.remove i)).tasks = pre ++ post := by
        simp [step, Todo.remove_task, hrf]
      constructor
      · intro t ht _
        rw [htasks] at ht
        rcases List.mem_append.mp ht with hl | hr
        · exact Or.inl (by rw [hts]; exact List.mem_append_left _ hl)
        · exact Or.inl
            (by rw [hts]; exact List.mem_append_right _ (List.mem_cons_of_mem _ hr))
      · intro t ht _
        rw [hts] at ht
        rw [htasks]
        rcases List.mem_append.mp ht with hl | hr
        · exact Or.inl (List.mem_append_left _ hl)
        · rcases List.mem_cons.mp hr with rfl | hpost
          · exact Or.inr ⟨i, rfl, hxi⟩
          · exact Or.inl (List.mem_append_right _ hpost)
    · push_neg at hex
      have hrf := removeFirst_not_found s.tasks i hex
      have htasks : (step s (Op.remove i)).tasks = s.tasks := by
        simp [step, Todo.remove_task, hrf]
      rw [htasks]
      exact ⟨fun t ht _ => Or.inl ht, fun t ht _ => Or.inl ht⟩
  | list => exact ⟨fun t ht _ => Or.inl ht, fun t ht _ => Or.inl ht⟩
  | get i => exact ⟨fun t ht _ => Or.inl ht, fun t ht _ => Or.inl ht⟩

/-- Witness for C9: a completed task survives a `remove_task` targeting it
only through the remove disjunct. -/
theorem completed_monotone_witness :
    (⟨0, "a", true⟩ : Task) ∈ (⟨[⟨0, "a", true⟩], 1⟩ : Todo).tasks ∧
    (⟨0, "a", true⟩ : Task).completed = true ∧
    ((⟨0, "a", true⟩ : Task) ∈ (step ⟨[⟨0, "a", true⟩], 1⟩ (Op.remove 0)).tasks ∨
      ∃ j, Op.remove 0 = Op.remove j ∧ (⟨0, "a", true⟩ : Task).id = j) :=
  ⟨by simp, rfl,
    (completed_monotone ⟨[⟨0, "a", true⟩], 1⟩ (Op.remove 0)).2 ⟨0, "a", true⟩ (by simp) rfl⟩

end TodoSpec
